import Mathlib

/-!
Verification of the UE5 knowledge-base maker against its specification.

Strings manipulated by the Python sources are modelled as `List Char`
(one entry per code point), file bytes as `List Nat`, and Python dicts as
association lists.  Each definition below embeds one function of the
repository; the theorems at the end of the file settle the spec claims.
-/

namespace Spec2Proof

/-- The whitespace class used by Python regex `\s` and by `str.strip()`
(ASCII part: space, tab, newline, carriage return, vertical tab, form feed). -/
def pySpace (c : Char) : Bool :=
  c = ' ' || c = '\t' || c = '\x0a' || c = '\x0d' || c = '\x0b' || c = '\x0c'

/-- Python `str.strip()`: drop whitespace from both ends. -/
def pyStrip (l : List Char) : List Char :=
  ((l.dropWhile pySpace).reverse.dropWhile pySpace).reverse

/-- Python `str.rstrip()`: drop whitespace from the right end only. -/
def pyRstrip (l : List Char) : List Char :=
  (l.reverse.dropWhile pySpace).reverse

/-- Lexicographic strict order on code-point lists; this is exactly Python's
`<` on strings (code-point comparison). -/
def lexLt : List Char → List Char → Bool
  | [], [] => false
  | [], _ :: _ => true
  | _ :: _, [] => false
  | a :: as, b :: bs => if a < b then true else if b < a then false else lexLt as bs

/-- Split a character list at every occurrence of `sep`
(the model of Python `str.split(sep)` / `re.split` on a single character). -/
def splitOnChar (sep : Char) : List Char → List (List Char)
  | [] => [[]]
  | c :: cs =>
    if c = sep then [] :: splitOnChar sep cs
    else
      match splitOnChar sep cs with
      | [] => [[c]]
      | l :: ls => (c :: l) :: ls

/-- Join chunks with a separator character (Python `sep.join(...)`). -/
def joinChar (sep : Char) : List (List Char) → List Char
  | [] => []
  | [l] => l
  | l :: ls => l ++ sep :: joinChar sep ls

/-- Insert a string into a strictly sorted duplicate-free list, keeping it
strictly sorted and duplicate-free. -/
def insSorted (s : List Char) : List (List Char) → List (List Char)
  | [] => [s]
  | t :: ts =>
    if lexLt s t then s :: t :: ts
    else if s = t then t :: ts
    else t :: insSorted s ts

/-- The model of Python `sorted(set(l))` for a list of strings: the strictly
ascending enumeration of the distinct elements of `l`. -/
def pyDedupSort (l : List (List Char)) : List (List Char) :=
  l.foldl (fun acc s => insSorted s acc) []

/-- First-match association-list lookup (the model of reading a Python dict
whose keys are unique). -/
def alookup : List (List Char × List Char) → List Char → Option (List Char)
  | [], _ => none
  | (k, v) :: rest, key => if k = key then some v else alookup rest key

/-! ## Embedding of `CppParser._split_params` (cpp_parser.py lines 781-798)

Splits a parameter list on commas, ignoring commas inside template angle
brackets.  `depth` is a Python int, hence `Int` here (a stray closing angle
bracket makes it negative). -/

def splitParamsAux (depth : Int) (cur : List Char) : List Char → List (List Char)
  | [] => if pyStrip cur ≠ [] then [cur] else []
  | c :: cs =>
    if c = '<' then splitParamsAux (depth + 1) (cur ++ [c]) cs
    else if c = '>' then splitParamsAux (depth - 1) (cur ++ [c]) cs
    else if c = ',' ∧ depth = 0 then cur :: splitParamsAux depth [] cs
    else splitParamsAux depth (cur ++ [c]) cs

def splitParams (s : List Char) : List (List Char) :=
  splitParamsAux 0 [] s

/-- Specification-side count of top-level commas of a parameter list: the
commas seen at angle-bracket depth 0 by the same left-to-right scan. -/
def topLevelCommas (depth : Int) : List Char → Nat
  | [] => 0
  | c :: cs =>
    if c = '<' then topLevelCommas (depth + 1) cs
    else if c = '>' then topLevelCommas (depth - 1) cs
    else if c = ',' ∧ depth = 0 then 1 + topLevelCommas depth cs
    else topLevelCommas depth cs

/-- Specification-side last chunk of the scan: the text accumulated after the
final top-level comma. -/
def lastChunk (depth : Int) (cur : List Char) : List Char → List Char
  | [] => cur
  | c :: cs =>
    if c = '<' then lastChunk (depth + 1) (cur ++ [c]) cs
    else if c = '>' then lastChunk (depth - 1) (cur ++ [c]) cs
    else if c = ',' ∧ depth = 0 then lastChunk depth [] cs
    else lastChunk depth (cur ++ [c]) cs

theorem splitParamsAux_length (s : List Char) : ∀ (depth : Int) (cur : List Char),
    (splitParamsAux depth cur s).length =
      topLevelCommas depth s + (if pyStrip (lastChunk depth cur s) = [] then 0 else 1) := by
  induction s with
  | nil =>
    intro depth cur
    simp only [splitParamsAux, topLevelCommas, lastChunk]
    by_cases h : pyStrip cur = [] <;> simp [h]
  | cons c cs ih =>
    intro depth cur
    simp only [splitParamsAux, topLevelCommas, lastChunk]
    by_cases h1 : c = '<'
    · simp [h1, ih]
    · by_cases h2 : c = '>'
      · simp [h1, h2, ih]
      · by_cases h3 : c = ',' ∧ depth = 0
        · simp [h1, h2, h3, ih]
          omega
        · simp [h1, h2, h3, ih]

/-! ## Embedding of the primary-parent selection
(cpp_parser.py lines 452-461) -/

/-- The interface naming test used at lines 452 and 457:
`len(pc) > 1 and pc[0] == 'I' and pc[1].isupper()`. -/
def isInterfaceName : List Char → Bool
  | c1 :: c2 :: _ => c1 = 'I' && c2.isUpper
  | _ => false

/-- Lines 455-461: the first listed parent that is not interface-named
becomes the primary parent; if every parent is interface-named, the first
listed parent is used. -/
def primaryParent (ps : List (List Char)) : Option (List Char) :=
  match ps.find? (fun pc => !(isInterfaceName pc)) with
  | some pc => some pc
  | none => ps.head?

/-! ## Embedding of the inheritance-list split
(cpp_parser.py lines 446-453)

The loop is `for p in re.split(r',', inherit)` followed by
`pc = re.sub(r'\b(public|private|protected)\s+', '', p).strip()` and a
filter dropping empty / bare access-specifier entries.  Note that
`re.split(r',', ...)` splits at EVERY comma. -/

def wordChar (c : Char) : Bool := c.isAlphanum || c = '_'

def kwPublic : List Char := ['p', 'u', 'b', 'l', 'i', 'c']

def kwPrivate : List Char := ['p', 'r', 'i', 'v', 'a', 't', 'e']

def kwProtected : List Char := ['p', 'r', 'o', 't', 'e', 'c', 't', 'e', 'd']

/-- Remove `kw` from the front of `cs`, or fail. -/
def stripKw : List Char → List Char → Option (List Char)
  | [], cs => some cs
  | _ :: _, [] => none
  | k :: ks, c :: cs => if c = k then stripKw ks cs else none

theorem stripKw_length {kw cs r : List Char} (h : stripKw kw cs = some r) :
    r.length + kw.length = cs.length := by
  induction kw generalizing cs with
  | nil => simp [stripKw] at h; simp [h]
  | cons k ks ih =>
    cases cs with
    | nil => simp [stripKw] at h
    | cons c cs' =>
      simp only [stripKw] at h
      split at h
      · have := ih h
        simp; omega
      · exact absurd h (by simp)

/-- Try to match one keyword alternative of `\b(public|private|protected)\s+`
at the head of `cs` (the word boundary is checked by the caller); on success
return the text after the keyword and its trailing whitespace run. -/
def trySpecKw (kw cs : List Char) : Option (List Char) :=
  match stripKw kw cs with
  | none => none
  | some [] => none
  | some (c :: rest) => if pySpace c then some (rest.dropWhile pySpace) else none

theorem dropWhile_length_le (p : Char → Bool) (l : List Char) :
    (l.dropWhile p).length ≤ l.length := by
  induction l with
  | nil => simp [List.dropWhile]
  | cons c cs ih =>
    simp only [List.dropWhile]
    split
    · exact Nat.le_succ_of_le ih
    · simp

theorem trySpecKw_length {kw cs r : List Char} (hk : kw ≠ [])
    (h : trySpecKw kw cs = some r) : r.length < cs.length := by
  unfold trySpecKw at h
  split at h
  · exact absurd h (by simp)
  · exact absurd h (by simp)
  · rename_i c rest hstrip
    split at h
    · have h1 := stripKw_length hstrip
      have h2 : r = rest.dropWhile pySpace := by
        have := h; simp at this; exact this.symm
      have h3 := dropWhile_length_le pySpace rest
      have h4 : 1 ≤ kw.length := by
        cases kw with
        | nil => exact absurd rfl hk
        | cons _ _ => simp
      subst h2
      simp at h1
      omega
    · exact absurd h (by simp)

/-- One attempt of the pattern `(public|private|protected)\s+` at the current
position (Python's alternation tries the branches left to right). -/
def trySpec (cs : List Char) : Option (List Char) :=
  match trySpecKw kwPublic cs with
  | some r => some r
  | none =>
    match trySpecKw kwPrivate cs with
    | some r => some r
    | none => trySpecKw kwProtected cs

theorem trySpec_length {cs r : List Char} (h : trySpec cs = some r) :
    r.length < cs.length := by
  unfold trySpec at h
  split at h
  · rename_i h1
    cases h
    exact trySpecKw_length (by simp [kwPublic]) h1
  · split at h
    · rename_i h2
      cases h
      exact trySpecKw_length (by simp [kwPrivate]) h2
    · exact trySpecKw_length (by simp [kwProtected]) h

/-- The scan of `re.sub(r'\b(public|private|protected)\s+', '', p)`.
`pw` records whether the previous character was a word character (so that
the `\b` boundary holds exactly when `pw` is false); after a replacement the
scan resumes right after the consumed whitespace run.  `fuel` only bounds
the recursion and is always at least the length of the text. -/
def subSpecAux : Nat → Bool → List Char → List Char
  | 0, _, l => l
  | _ + 1, _, [] => []
  | fuel + 1, pw, c :: rest =>
    if pw then c :: subSpecAux fuel (wordChar c) rest
    else
      match trySpec (c :: rest) with
      | some rest2 => subSpecAux fuel false rest2
      | none => c :: subSpecAux fuel (wordChar c) rest

def subSpec (l : List Char) : List Char :=
  subSpecAux l.length false l

/-- Lines 449-451 for one comma-separated segment: strip access specifiers,
strip whitespace, and drop the entry when it is empty or a bare access
specifier keyword. -/
def cleanSeg (p : List Char) : Option (List Char) :=
  let pc := pyStrip (subSpec p)
  if pc ≠ [] ∧ pc ≠ kwPublic ∧ pc ≠ kwPrivate ∧ pc ≠ kwProtected then some pc
  else none

/-- Lines 446-453 (the `parent_classes` part): split the inheritance text at
every comma and clean each segment. -/
def parseParents (inherit : List Char) : List (List Char) :=
  if inherit = [] then []
  else (splitOnChar (',') inherit).filterMap cleanSeg

/-! ## Order facts about `lexLt` and Python `sorted(set(...))` -/

theorem lexLt_irrefl (a : List Char) : lexLt a a = false := by
  induction a with
  | nil => rfl
  | cons c cs ih => simp [lexLt, ih]

theorem lexLt_conn : ∀ {a b : List Char}, lexLt a b = false → lexLt b a = false → a = b := by
  intro a
  induction a with
  | nil =>
    intro b h1 _
    cases b with
    | nil => rfl
    | cons d ds => simp [lexLt] at h1
  | cons c cs ih =>
    intro b h1 h2
    cases b with
    | nil => simp [lexLt] at h2
    | cons d ds =>
      simp only [lexLt] at h1 h2
      by_cases hcd : c < d
      · simp [hcd] at h1
      · by_cases hdc : d < c
        · simp [hcd, hdc] at h2
        · have : c = d := le_antisymm (not_lt.mp hdc) (not_lt.mp hcd)
          subst this
          simp [hcd] at h1 h2
          rw [ih h1 h2]

theorem lexLt_trans : ∀ {a b c : List Char},
    lexLt a b = true → lexLt b c = true → lexLt a c = true := by
  intro a
  induction a with
  | nil =>
    intro b c h1 h2
    cases b with
    | nil => simp [lexLt] at h1
    | cons e es =>
      cases c with
      | nil => simp [lexLt] at h2
      | cons f fs => simp [lexLt]
  | cons x xs ih =>
    intro b c h1 h2
    cases b with
    | nil => simp [lexLt] at h1
    | cons e es =>
      cases c with
      | nil => simp [lexLt] at h2
      | cons f fs =>
        simp only [lexLt] at h1 h2 ⊢
        by_cases hxe : x < e
        · by_cases hef : e < f
          · simp [lt_trans hxe hef]
          · by_cases hfe : f < e
            · simp [hef, hfe] at h2
            · have : e = f := le_antisymm (not_lt.mp hfe) (not_lt.mp hef)
              subst this
              simp [hxe]
        · by_cases hex : e < x
          · simp [hxe, hex] at h1
          · have : x = e := le_antisymm (not_lt.mp hex) (not_lt.mp hxe)
            subst this
            simp [hxe] at h1
            by_cases hef : x < f
            · simp [hef]
            · by_cases hfe : f < x
              · simp [hef, hfe] at h2
              · simp [hef, hfe] at h2 ⊢
                exact ih h1 h2

/-- Strictly ascending (hence duplicate-free) in Python string order. -/
def strictAsc (l : List (List Char)) : Prop :=
  List.Chain' (fun a b => lexLt a b = true) l

theorem mem_insSorted {x s : List Char} : ∀ {l : List (List Char)},
    x ∈ insSorted s l ↔ x = s ∨ x ∈ l := by
  intro l
  induction l with
  | nil => simp [insSorted]
  | cons t ts ih =>
    simp only [insSorted]
    split
    · simp [List.mem_cons]
    · split
      · rename_i h1 h2
        subst h2
        simp [List.mem_cons]
      · simp only [List.mem_cons, ih]
        tauto

theorem insSorted_sorted {s : List Char} : ∀ {l : List (List Char)},
    strictAsc l → strictAsc (insSorted s l) := by
  intro l
  induction l with
  | nil =>
    intro _
    simp [insSorted, strictAsc]
  | cons t ts ih =>
    intro h
    unfold strictAsc at h
    rw [List.chain'_cons'] at h
    simp only [insSorted]
    split
    · rename_i h1
      unfold strictAsc
      rw [List.chain'_cons']
      constructor
      · intro b hb
        simp at hb
        subst hb
        exact h1
      · rw [List.chain'_cons']
        exact h
    · split
      · rename_i h1 h2
        subst h2
        unfold strictAsc
        rw [List.chain'_cons']
        exact h
      · rename_i h1 h2
        have hts : lexLt t s = true := by
          have := lexLt_conn (a := s) (b := t)
          by_cases hts' : lexLt t s = true
          · exact hts'
          · exact absurd (this (by simpa using h1) (by simpa using hts')) h2
        rw [strictAsc, List.chain'_cons']
        constructor
        · intro b hb
          cases ts with
          | nil =>
            simp [insSorted] at hb
            subst hb
            exact hts
          | cons u us =>
            simp only [insSorted] at hb
            split at hb
            · simp at hb
              subst hb
              exact hts
            · split at hb
              · simp at hb
                subst hb
                exact h.1 u (by simp)
              · simp at hb
                subst hb
                exact h.1 u (by simp)
        · exact ih h.2

theorem pyDedupSort_go_sorted {l : List (List Char)} :
    ∀ {acc : List (List Char)}, strictAsc acc →
      strictAsc (l.foldl (fun acc s => insSorted s acc) acc) := by
  induction l with
  | nil => intro acc h; simpa using h
  | cons s rest ih =>
    intro acc h
    simpa using ih (insSorted_sorted h)

theorem pyDedupSort_sorted (l : List (List Char)) : strictAsc (pyDedupSort l) :=
  pyDedupSort_go_sorted (by simp [strictAsc])

theorem pyDedupSort_go_mem {x : List Char} : ∀ {l acc : List (List Char)},
    x ∈ l.foldl (fun acc s => insSorted s acc) acc ↔ x ∈ acc ∨ x ∈ l := by
  intro l
  induction l with
  | nil => intro acc; simp
  | cons s rest ih =>
    intro acc
    simp only [List.foldl_cons, ih, mem_insSorted, List.mem_cons]
    tauto

theorem mem_pyDedupSort {x : List Char} {l : List (List Char)} :
    x ∈ pyDedupSort l ↔ x ∈ l := by
  rw [pyDedupSort, pyDedupSort_go_mem]
  simp

theorem strictAsc_pairwise : ∀ {l : List (List Char)}, strictAsc l →
    List.Pairwise (fun a b => lexLt a b = true) l := by
  intro l
  induction l with
  | nil => intro _; simp
  | cons a l ih =>
    intro h
    unfold strictAsc at h
    rw [List.chain'_cons'] at h
    have hp := ih h.2
    rw [List.pairwise_cons]
    refine ⟨?_, hp⟩
    intro b hb
    cases l with
    | nil => simp at hb
    | cons c cs =>
      have hac : lexLt a c = true := h.1 c (by simp)
      rcases List.mem_cons.mp hb with rfl | hbs
      · exact hac
      · have := (List.pairwise_cons.mp hp).1 b hbs
        exact lexLt_trans hac this

theorem strictAsc_nodup : ∀ {l : List (List Char)}, strictAsc l → l.Nodup := by
  intro l h
  refine (strictAsc_pairwise h).imp ?_
  intro a b hab
  intro hEq
  subst hEq
  rw [lexLt_irrefl a] at hab
  exact absurd hab (by simp)

/-! ## Embedding of `UpdateStage._compute_diff` (update.py lines 144-175) -/

/-- `old.modules[name].get('hash', '')`: the hash recorded in the prior
manifest (the manifest's per-module metadata is modelled by its hash field,
the only field the diff reads). -/
def manifestHash (oldModules : List (List Char × List Char)) (n : List Char) : List Char :=
  (alookup oldModules n).getD []

/-- `current_map[name].get('module_hash', '')`, where
`current_map = {m['name']: m for m in current}` keeps the LAST entry for a
duplicated name (Python dict-comprehension semantics), hence the lookup on
the reversed list. -/
def scanHash (current : List (List Char × List Char)) (n : List Char) : List Char :=
  (alookup current.reverse n).getD []

structure DiffResult where
  added : List (List Char)
  modified : List (List Char)
  removed : List (List Char)
  unchanged : List (List Char)
deriving DecidableEq

/-- Lines 150-175.  Python set values (`added`, `removed`, and the iteration
over `old_modules & new_modules`) are modelled by filtered key lists fed to
`pyDedupSort`; since every output is passed through `sorted(...)` on
duplicate-free sets, the set iteration order is immaterial. -/
def computeDiff (oldModules current : List (List Char × List Char)) : DiffResult :=
  let oldKeys := oldModules.map Prod.fst
  let curKeys := current.map Prod.fst
  let inter := oldKeys.filter (fun n => decide (n ∈ curKeys))
  { added := pyDedupSort (curKeys.filter (fun n => !(decide (n ∈ oldKeys))))
    modified := pyDedupSort
      (inter.filter (fun n => decide (manifestHash oldModules n ≠ scanHash current n)))
    removed := pyDedupSort (oldKeys.filter (fun n => !(decide (n ∈ curKeys))))
    unchanged := pyDedupSort
      (inter.filter (fun n => decide (manifestHash oldModules n = scanHash current n))) }

/-! ## Embedding of `UpdateStage.run` (update.py lines 38-99) -/

/-- The externally visible side effects of one `UpdateStage.run` invocation,
in program order: scanning the source tree, computing the diff, running the
pipeline on changed modules, and writing the manifest file. -/
inductive UpdateEffect
  | scanModules
  | diffComputed
  | runChanged
  | saveManifest
deriving DecidableEq

/-- The dictionaries returned by `UpdateStage.run`. -/
inductive UpdateRunResult
  | errorNoKB
  | upToDate
  | updated (modulesUpdated modulesRemoved : Nat)
deriving DecidableEq

structure RunOutcome where
  result : UpdateRunResult
  effects : List UpdateEffect
deriving DecidableEq

/-- Lines 38-99: if no manifest was loaded, return the error dictionary
immediately (before any scan, diff or write); otherwise scan, diff, and
either return early when nothing changed or update and save the manifest. -/
def updateRun (oldManifest : Option (List (List Char × List Char)))
    (scanned : List (List Char × List Char)) : RunOutcome :=
  match oldManifest with
  | none => { result := .errorNoKB, effects := [] }
  | some old =>
    let diff := computeDiff old scanned
    if diff.added = [] ∧ diff.modified = [] ∧ diff.removed = [] then
      { result := .upToDate, effects := [.scanModules, .diffComputed] }
    else
      { result := .updated (diff.added.length + diff.modified.length) diff.removed.length
        effects := [.scanModules, .diffComputed, .runChanged, .saveManifest] }

/-! ## Embedding of `BuildCsParser` (buildcs_parser.py)

The five array-literal patterns
`NAME\.(?:AddRange|Add)\(\s*new\s+string\[\]\s*\x7b\s*([^\x7d]+)\s*\x7d\s*\)`
and the joined single-add pattern are embedded as deterministic scanners;
the only regex backtracking that can influence a match outcome here is the
`AddRange`/`Add` alternation and the interplay of the greedy runs with the
fixed literals around them, both handled explicitly below.  `re.findall` /
`re.finditer` scan left to right and resume after each (always non-empty)
match; the scan is written with a fuel argument equal to the text length,
which each step strictly decreases. -/

def wsStar (cs : List Char) : List Char := cs.dropWhile pySpace

def wsPlus : List Char → Option (List Char)
  | [] => none
  | c :: rest => if pySpace c then some (rest.dropWhile pySpace) else none

def pubArrName : List Char := String.data ("PublicDependencyModuleNames")

def privArrName : List Char := String.data ("PrivateDependencyModuleNames")

def dynArrName : List Char := String.data ("DynamicallyLoadedModuleNames")

def weakArrName : List Char := String.data ("WeakIncludePathsModuleNames")

def circArrName : List Char := String.data ("CircularlyReferencedDependentModules")

def addRangeLit : List Char := String.data ("AddRange")

def addLit : List Char := String.data ("Add")

def newLit : List Char := String.data ("new")

def stringArrLit : List Char := String.data ("string[]")

/-- The tail `\s*([^\x7d]+)\s*\x7d` after the opening brace: the group is
everything up to the next closing brace, minus the whitespace taken by the
leading greedy `\s*` (which yields one character back when the segment is
all whitespace, so that the one-or-more group can match). -/
def matchBraceGroup (cs : List Char) : Option (List Char × List Char) :=
  let seg := cs.takeWhile (fun c => c ≠ '\x7d')
  match cs.drop seg.length with
  | _ :: rest2 =>
    if seg = [] then none
    else
      let w := (seg.takeWhile pySpace).length
      some (seg.drop (if w < seg.length then w else seg.length - 1), rest2)
  | [] => none

/-- The pattern tail `\(\s*new\s+string\[\]\s*\x7b...` after the method
name; returns the captured group and the text after the match. -/
def matchTailArray (cs0 : List Char) : Option (List Char × List Char) :=
  match stripKw ['('] cs0 with
  | none => none
  | some cs1 =>
    match stripKw newLit (wsStar cs1) with
    | none => none
    | some cs2 =>
      match wsPlus cs2 with
      | none => none
      | some cs3 =>
        match stripKw stringArrLit cs3 with
        | none => none
        | some cs4 =>
          match stripKw ['\x7b'] (wsStar cs4) with
          | none => none
          | some cs5 =>
            match matchBraceGroup cs5 with
            | none => none
            | some (g, cs6) =>
              match stripKw [')'] (wsStar cs6) with
              | none => none
              | some cs7 => some (g, cs7)

/-- One attempt of an array-literal dependency pattern at the current
position; the `AddRange` alternative is tried before `Add`. -/
def matchArrayAt (name : List Char) (cs : List Char) : Option (List Char × List Char) :=
  match stripKw (name ++ ['.']) cs with
  | none => none
  | some cs1 =>
    match stripKw addRangeLit cs1 with
    | some cs2 =>
      match matchTailArray cs2 with
      | some r => some r
      | none =>
        match stripKw addLit cs1 with
        | some cs3 => matchTailArray cs3
        | none => none
    | none =>
      match stripKw addLit cs1 with
      | some cs3 => matchTailArray cs3
      | none => none

/-- Left-to-right non-overlapping scan of `re.findall`/`re.finditer`: try the
matcher at each position, resuming after each match.  The fuel starts at the
text length, which bounds the number of scan steps because every successful
match of the matchers used here consumes at least one character. -/
def findAllAux {α : Type} (m : List Char → Option (α × List Char)) : Nat → List Char → List α
  | 0, _ => []
  | _ + 1, [] => []
  | fuel + 1, c :: cs =>
    match m (c :: cs) with
    | some (g, rest) => g :: findAllAux m fuel rest
    | none => findAllAux m fuel cs

def findAllMatches {α : Type} (m : List Char → Option (α × List Char)) (cs : List Char) : List α :=
  findAllAux m cs.length cs

/-- `re.sub(r'//.*$', '', t, flags=re.MULTILINE)`: truncate every line at its
first `//`. -/
def truncLineComment : List Char → List Char
  | [] => []
  | '/' :: '/' :: _ => []
  | c :: cs => c :: truncLineComment cs

def stripLineComments (t : List Char) : List Char :=
  joinChar ('\x0a') ((splitOnChar ('\x0a') t).map truncLineComment)

/-- Drop characters up to and including the first `*/`, or fail when there is
none (the scan of Python `str.find('*/')`). -/
def dropClose : List Char → Option (List Char)
  | [] => none
  | [_] => none
  | c1 :: c2 :: rest =>
    if c1 = '*' ∧ c2 = '/' then some rest
    else dropClose (c2 :: rest)

theorem dropClose_length : ∀ {cs r : List Char}, dropClose cs = some r →
    r.length < cs.length := by
  intro cs
  induction cs with
  | nil => intro r h; simp [dropClose] at h
  | cons c1 cs' ih =>
    intro r h
    cases cs' with
    | nil => simp [dropClose] at h
    | cons c2 rest =>
      simp only [dropClose] at h
      split at h
      · simp at h
        subst h
        simp
        omega
      · exact Nat.lt_succ_of_lt (ih h)

/-- `re.sub(r'/\*.*?\*/', '', t, flags=re.DOTALL)`: delete every block
comment, leaving an unterminated `/*` in place (the pattern cannot match it,
and without any later `*/` nothing after it can match either). -/
def stripBlockCommentsAux : Nat → List Char → List Char
  | 0, l => l
  | _ + 1, [] => []
  | fuel + 1, '/' :: '*' :: rest =>
    (match dropClose rest with
     | some rest2 => stripBlockCommentsAux fuel rest2
     | none => '/' :: '*' :: stripBlockCommentsAux fuel rest)
  | fuel + 1, c :: cs => c :: stripBlockCommentsAux fuel cs

def stripBlockComments (t : List Char) : List Char :=
  stripBlockCommentsAux t.length t

/-- `re.findall(r'"([^"]+)"', t)`: collect the non-empty quoted chunks. -/
def findQuotedAux : Nat → List Char → List (List Char)
  | 0, _ => []
  | _ + 1, [] => []
  | fuel + 1, c :: cs =>
    if c = '"' then
      let body := cs.takeWhile (fun d => d ≠ '"')
      match cs.drop body.length with
      | _ :: rest2 => if body = [] then findQuotedAux fuel cs else body :: findQuotedAux fuel rest2
      | [] => findQuotedAux fuel cs
    else findQuotedAux fuel cs

def findQuoted (t : List Char) : List (List Char) :=
  findQuotedAux t.length t

/-- `BuildCsParser._extract_module_names` (lines 107-124): strip line
comments, strip block comments, then collect quoted names. -/
def extractModuleNames (t : List Char) : List (List Char) :=
  findQuoted (stripBlockComments (stripLineComments t))

/-- One array-literal pattern's contribution (lines 81-85): the extracted
names of every match, in match order. -/
def arrayNames (name : List Char) (content : List Char) : List (List Char) :=
  (findAllMatches (matchArrayAt name) content).foldr (fun g acc => extractModuleNames g ++ acc) []

def pubWord : List Char := String.data ("Public")

def privWord : List Char := String.data ("Private")

def depAddLit : List Char := String.data ("DependencyModuleNames.Add")

def dynAddLit : List Char := String.data ("DynamicallyLoadedModuleNames.Add")

/-- The tail `\(\s*"([^"]+)"\s*\)` of the single-add patterns. -/
def matchSingleTail (cs0 : List Char) : Option (List Char × List Char) :=
  match stripKw ['('] cs0 with
  | none => none
  | some cs1 =>
    match stripKw ['"'] (wsStar cs1) with
    | none => none
    | some cs2 =>
      let nm := cs2.takeWhile (fun d => d ≠ '"')
      if nm = [] then none
      else
        match cs2.drop nm.length with
        | _ :: cs3 =>
          match stripKw [')'] (wsStar cs3) with
          | none => none
          | some cs4 => some (nm, cs4)
        | [] => none

/-- The second alternative `DynamicallyLoadedModuleNames\.Add\(\s*"([^"]+)"\s*\)`
of the joined single-add pattern; its name is capture group 3. -/
def matchSingleDyn (cs : List Char) :
    Option ((Option (List Char) × Option (List Char) × Option (List Char)) × List Char) :=
  match stripKw dynAddLit cs with
  | none => none
  | some cs1 =>
    match matchSingleTail cs1 with
    | none => none
    | some (nm, rest) => some ((none, none, some nm), rest)

/-- One attempt of `'|'.join(SINGLE_ADD_PATTERNS)` at the current position.
The result carries the three capture groups exactly as Python
`match.groups()` does: groups of the alternative that did not match are
`none`. -/
def matchSingleAt (cs : List Char) :
    Option ((Option (List Char) × Option (List Char) × Option (List Char)) × List Char) :=
  let b1 :=
    match stripKw pubWord cs with
    | some cs1 =>
      match (stripKw depAddLit cs1).bind matchSingleTail with
      | some (nm, rest) => some ((some pubWord, some nm, none), rest)
      | none => none
    | none =>
      match stripKw privWord cs with
      | some cs1 =>
        match (stripKw depAddLit cs1).bind matchSingleTail with
        | some (nm, rest) => some ((some privWord, some nm, none), rest)
        | none => none
      | none => none
  match b1 with
  | some r => some r
  | none => matchSingleDyn cs

/-- The five dependency lists returned by `BuildCsParser.parse_content`. -/
structure BuildDeps where
  pubDeps : List (List Char)
  privDeps : List (List Char)
  dynDeps : List (List Char)
  weakDeps : List (List Char)
  circDeps : List (List Char)
deriving DecidableEq

/-- Lines 88-99: processing of one single-add match.  `match.groups()` always
has length 3 (the total number of groups of the joined pattern), so the
`len(groups) >= 2` branch is always taken: group 1 decides public/private,
group 2 is the name, and a dynamic single-add match (whose only name sits in
group 3) contributes nothing because its group 2 is `None`. -/
def addSingle (d : BuildDeps)
    (g : Option (List Char) × Option (List Char) × Option (List Char)) : BuildDeps :=
  match g.2.1 with
  | none => d
  | some m =>
    if m ≠ [] ∧ ¬ ((if g.1 = some pubWord then d.pubDeps else d.privDeps).contains m) then
      if g.1 = some pubWord then { d with pubDeps := d.pubDeps ++ [m] }
      else { d with privDeps := d.privDeps ++ [m] }
    else d

/-- `BuildCsParser.parse_content` (lines 68-105): array-literal matches for
the five patterns in dictionary order, then the single-add matches, then
`sorted(set(...))` on each of the five lists. -/
def parseBuildCsContent (content : List Char) : BuildDeps :=
  let d0 : BuildDeps :=
    { pubDeps := arrayNames pubArrName content
      privDeps := arrayNames privArrName content
      dynDeps := arrayNames dynArrName content
      weakDeps := arrayNames weakArrName content
      circDeps := arrayNames circArrName content }
  let d1 := (findAllMatches matchSingleAt content).foldl addSingle d0
  { pubDeps := pyDedupSort d1.pubDeps
    privDeps := pyDedupSort d1.privDeps
    dynDeps := pyDedupSort d1.dynDeps
    weakDeps := pyDedupSort d1.weakDeps
    circDeps := pyDedupSort d1.circDeps }

/-- `BuildCsParser.parse_file` (lines 50-66) over a modelled filesystem (an
association list from path to content): a missing path yields the
five empty lists; an existing one is read and parsed. -/
def parseBuildCsFile (fs : List (List Char × List Char)) (path : List Char) : BuildDeps :=
  match alookup fs path with
  | none => { pubDeps := [], privDeps := [], dynDeps := [], weakDeps := [], circDeps := [] }
  | some content => parseBuildCsContent content

/-! ## Embedding of `Hasher.compute_module_hash` (manifest.py lines 167-191)

A module's combined hash feeds the declaration file's bytes and then the
bytes of every source file, in `sorted(source_files)` order, into one
SHA-256 state; feeding chunks into the running state hashes their
concatenation.  The digest function itself is cryptographic and is taken as
a parameter `H`; path comparison (`pathlib` sorts by the path string) is
`lexLt` on the path. -/

structure SrcFile where
  path : List Char
  bytes : List Nat
deriving DecidableEq

/-- Insert into a list sorted by path (the model of Python stable
`sorted(...)` on paths). -/
def insFile (f : SrcFile) : List SrcFile → List SrcFile
  | [] => [f]
  | g :: gs => if lexLt f.path g.path then f :: g :: gs else g :: insFile f gs

def sortFiles (l : List SrcFile) : List SrcFile := l.foldr insFile []

def concatBytes : List SrcFile → List Nat
  | [] => []
  | f :: fs => f.bytes ++ concatBytes fs

/-- Lines 182-191: update with the declaration file, then with every source
file in sorted order; the digest is `H` of the concatenated stream. -/
def computeModuleHash (H : List Nat → List Nat) (buildcs : List Nat)
    (files : List SrcFile) : List Nat :=
  H (buildcs ++ concatBytes (sortFiles files))

theorem lexLt_asymm {a b : List Char} (h : lexLt a b = true) : lexLt b a = false := by
  by_cases h2 : lexLt b a = true
  · have := lexLt_trans h h2
    rw [lexLt_irrefl] at this
    exact absurd this (by simp)
  · simpa using h2

theorem insFile_comm {a b : SrcFile} (hab : a.path ≠ b.path) :
    ∀ s, insFile a (insFile b s) = insFile b (insFile a s) := by
  have hcases : lexLt a.path b.path = true ∨ lexLt b.path a.path = true := by
    by_cases h1 : lexLt a.path b.path = true
    · exact Or.inl h1
    · by_cases h2 : lexLt b.path a.path = true
      · exact Or.inr h2
      · exact absurd (lexLt_conn (by simpa using h1) (by simpa using h2)) hab
  intro s
  induction s with
  | nil =>
    rcases hcases with h | h
    · simp [insFile, h, lexLt_asymm h]
    · simp [insFile, h, lexLt_asymm h]
  | cons g gs ih =>
    by_cases hbg : lexLt b.path g.path = true
    · by_cases hag : lexLt a.path g.path = true
      · rcases hcases with h | h
        · simp [insFile, hbg, hag, h, lexLt_asymm h]
        · simp [insFile, hbg, hag, h, lexLt_asymm h]
      · rcases hcases with h | h
        · exact absurd (lexLt_trans h hbg) (by simpa using hag)
        · simp [insFile, hbg, hag, lexLt_asymm h]
    · by_cases hag : lexLt a.path g.path = true
      · rcases hcases with h | h
        · simp [insFile, hbg, hag, lexLt_asymm h]
        · exact absurd (lexLt_trans h hag) (by simpa using hbg)
      · simp [insFile, hbg, hag, ih]

theorem insFile_perm (f : SrcFile) : ∀ s, (insFile f s).Perm (f :: s) := by
  intro s
  induction s with
  | nil => simp [insFile]
  | cons g gs ih =>
    simp only [insFile]
    split
    · exact List.Perm.refl _
    · exact (ih.cons g).trans (List.Perm.swap f g gs)

theorem sortFiles_perm : ∀ l : List SrcFile, (sortFiles l).Perm l := by
  intro l
  induction l with
  | nil => simp [sortFiles]
  | cons x t ih =>
    have : sortFiles (x :: t) = insFile x (sortFiles t) := rfl
    rw [this]
    exact (insFile_perm x (sortFiles t)).trans (ih.cons x)

theorem sortFiles_congr : ∀ {l l' : List SrcFile}, l.Perm l' →
    (l.map SrcFile.path).Nodup → sortFiles l = sortFiles l' := by
  intro l l' p
  induction p with
  | nil => intro _; rfl
  | cons x p ih =>
    intro h
    have h2 : ((List.map SrcFile.path _).Nodup) := (by
      simp only [List.map_cons, List.nodup_cons] at h
      exact h.2)
    show insFile x (sortFiles _) = insFile x (sortFiles _)
    rw [ih h2]
  | swap x y t =>
    intro h
    have hxy : y.path ≠ x.path := by
      simp only [List.map_cons, List.nodup_cons, List.mem_cons] at h
      intro hEq
      exact h.1 (Or.inl hEq)
    show insFile y (insFile x (sortFiles t)) = insFile x (insFile y (sortFiles t))
    exact insFile_comm hxy (sortFiles t)
  | trans p1 p2 ih1 ih2 =>
    intro h
    have hm : ((List.map SrcFile.path _).Nodup) := ((p1.map SrcFile.path).nodup_iff).mp h
    exact (ih1 h).trans (ih2 hm)

/-! ## Embedding of `CppParser.parse_content` error handling
(cpp_parser.py lines 217-240)

The whole parsing body sits in a `try` block; `except Exception` catches
every exception, prints the file name with the exception, and returns three
empty maps.  The body is abstracted as the `Except`-valued computation it
is; the three result dictionaries are association lists. -/

/-- A Python exception value (its printed form). -/
def PyExn : Type := List Char

/-- `CppParser.parse_content`: the returned triple of maps together with the
error line printed by the `except` handler (`none` when nothing was caught). -/
def parseContentRun {κ₁ ν₁ κ₂ ν₂ κ₃ ν₃ : Type} (filePath : List Char)
    (body : Except PyExn (List (κ₁ × ν₁) × List (κ₂ × ν₂) × List (κ₃ × ν₃))) :
    (List (κ₁ × ν₁) × List (κ₂ × ν₂) × List (κ₃ × ν₃)) × Option (List Char × PyExn) :=
  match body with
  | .ok r => (r, none)
  | .error e => (([], [], []), some (filePath, e))

/-! ## Embedding of `CppParser._preprocess_content_lines`
(cpp_parser.py lines 303-334) -/

/-- The character scan of lines 317-331 for one line: copy characters, stop
at `//`, skip `/*...*/` within the line (resuming after the close), and
report `true` when the line ends inside an unterminated block comment. -/
def scanLine : List Char → List Char × Bool
  | [] => ([], false)
  | [c] => ([c], false)
  | c1 :: c2 :: rest =>
    if c1 = '/' ∧ c2 = '/' then ([], false)
    else if c1 = '/' ∧ c2 = '*' then
      match h : dropClose rest with
      | some rest2 => scanLine rest2
      | none => ([], true)
    else
      ((c1 :: (scanLine (c2 :: rest)).1), (scanLine (c2 :: rest)).2)
termination_by l => l.length
decreasing_by
  · have := dropClose_length h
    simp only [List.length_cons]
    omega
  · simp only [List.length_cons]
    omega

/-- `re.sub(r'[ \t]+', ' ', ...)`'s character class. -/
def isBlank (c : Char) : Bool := c = ' ' || c = '\t'

/-- `re.sub(r'[ \t]+', ' ', result)`: replace every maximal run of spaces
and tabs by a single space. -/
def collapseWs : List Char → List Char
  | [] => []
  | [c] => if isBlank c then [' '] else [c]
  | c1 :: c2 :: rest =>
    if isBlank c1 then
      if isBlank c2 then collapseWs (c2 :: rest)
      else ' ' :: collapseWs (c2 :: rest)
    else c1 :: collapseWs (c2 :: rest)

/-- Lines 308-333 for one line, given the block-comment state carried over
from the previous line: a line inside an open block either closes it and is
scanned from there on, or stays blank; a scanned line is whitespace-collapsed
and right-stripped. -/
def processLine (inBlock : Bool) (line : List Char) : List Char × Bool :=
  if inBlock then
    match dropClose line with
    | none => ([], true)
    | some rest =>
      (pyRstrip (collapseWs (scanLine rest).1), (scanLine rest).2)
  else
    (pyRstrip (collapseWs (scanLine line).1), (scanLine line).2)

def preprocessLines : Bool → List (List Char) → List (List Char)
  | _, [] => []
  | b, l :: ls => (processLine b l).1 :: preprocessLines (processLine b l).2 ls

/-- `CppParser._preprocess_content_lines` (lines 303-334). -/
def preprocessContentLines (content : List Char) : List (List Char) :=
  preprocessLines false (splitOnChar ('\x0a') content)

/-! ### Invariants of the preprocessed lines -/

/-- All adjacent pairs of the list satisfy `ok`. -/
def adjOK (ok : Char → Char → Bool) : List Char → Bool
  | [] => true
  | [_] => true
  | c1 :: c2 :: rest => ok c1 c2 && adjOK ok (c2 :: rest)

/-- No comment can start here: no `/` directly followed by `/` or `*`. -/
def slashOK (c1 c2 : Char) : Bool := !(c1 = '/' && (c2 = '/' || c2 = '*'))

/-- No two adjacent blank characters. -/
def blankOK (c1 c2 : Char) : Bool := !(isBlank c1 && isBlank c2)

theorem dropClose_subset : ∀ {cs r : List Char}, dropClose cs = some r →
    ∀ {x}, x ∈ r → x ∈ cs := by
  intro cs
  induction cs with
  | nil => intro r h; simp [dropClose] at h
  | cons c1 cs' ih =>
    intro r h x hx
    cases cs' with
    | nil => simp [dropClose] at h
    | cons c2 rest =>
      simp only [dropClose] at h
      split at h
      · simp at h
        subst h
        simp [hx]
      · exact List.mem_cons_of_mem _ (ih h hx)

theorem scanLine_nil : scanLine [] = ([], false) := by
  rw [scanLine]

theorem scanLine_single (c : Char) : scanLine [c] = ([c], false) := by
  rw [scanLine]

theorem scanLine_comment (rest : List Char) : scanLine ('/' :: '/' :: rest) = ([], false) := by
  rw [scanLine]
  simp

theorem scanLine_block_close {rest rest2 : List Char} (hd : dropClose rest = some rest2) :
    scanLine ('/' :: '*' :: rest) = scanLine rest2 := by
  rw [scanLine]
  have hne : ¬(('/' : Char) = '/' ∧ ('*' : Char) = '/') := by simp
  rw [if_neg hne, if_pos ⟨rfl, rfl⟩]
  split
  · rename_i r' heq
    rw [hd] at heq
    cases heq
    rfl
  · rename_i heq
    rw [hd] at heq
    simp at heq

theorem scanLine_block_open {rest : List Char} (hd : dropClose rest = none) :
    scanLine ('/' :: '*' :: rest) = ([], true) := by
  rw [scanLine]
  have hne : ¬(('/' : Char) = '/' ∧ ('*' : Char) = '/') := by simp
  rw [if_neg hne, if_pos ⟨rfl, rfl⟩]
  split
  · rename_i r' heq
    rw [hd] at heq
    simp at heq
  · rfl

theorem scanLine_copy {c1 c2 : Char} {rest : List Char}
    (h12 : ¬(c1 = '/' ∧ c2 = '/')) (h1s : ¬(c1 = '/' ∧ c2 = '*')) :
    scanLine (c1 :: c2 :: rest) =
      ((c1 :: (scanLine (c2 :: rest)).1), (scanLine (c2 :: rest)).2) := by
  rw [scanLine]
  rw [if_neg h12, if_neg h1s]

theorem scanLine_subset : ∀ l : List Char, ∀ {x}, x ∈ (scanLine l).1 → x ∈ l := by
  intro l
  induction l using scanLine.induct with
  | case1 => intro x hx; rw [scanLine_nil] at hx; simp at hx
  | case2 c => intro x hx; rw [scanLine_single] at hx; simpa using hx
  | case3 c1 c2 rest h12 =>
    obtain ⟨rfl, rfl⟩ := h12
    intro x hx
    rw [scanLine_comment] at hx
    simp at hx
  | case4 c1 c2 rest h12 h1s rest2 hdrop ih =>
    obtain ⟨rfl, rfl⟩ := h1s
    intro x hx
    rw [scanLine_block_close hdrop] at hx
    have := dropClose_subset hdrop (ih hx)
    simp [this]
  | case5 c1 c2 rest h12 h1s hdrop =>
    obtain ⟨rfl, rfl⟩ := h1s
    intro x hx
    rw [scanLine_block_open hdrop] at hx
    simp at hx
  | case6 c1 c2 rest h12 h1s ih =>
    intro x hx
    rw [scanLine_copy h12 h1s] at hx
    rcases List.mem_cons.mp hx with rfl | hx2
    · simp
    · exact List.mem_cons_of_mem _ (ih hx2)

/-- The scan copies the head character whenever it is not a slash. -/
theorem scanLine_head {c : Char} (hc : c ≠ '/') (rest : List Char) :
    (scanLine (c :: rest)).1 = [] ∨
      ∃ r', (scanLine (c :: rest)).1 = c :: r' := by
  cases rest with
  | nil => right; exact ⟨[], by rw [scanLine_single]⟩
  | cons c2 rest2 =>
    have h12 : ¬(c = '/' ∧ c2 = '/') := by intro h; exact hc h.1
    have h1s : ¬(c = '/' ∧ c2 = '*') := by intro h; exact hc h.1
    rw [scanLine_copy h12 h1s]
    right
    exact ⟨_, rfl⟩

theorem scanLine_adjOK : ∀ l : List Char, adjOK slashOK (scanLine l).1 = true := by
  intro l
  induction l using scanLine.induct with
  | case1 => rw [scanLine_nil]; rfl
  | case2 c => rw [scanLine_single]; rfl
  | case3 c1 c2 rest h12 =>
    obtain ⟨rfl, rfl⟩ := h12
    rw [scanLine_comment]
    rfl
  | case4 c1 c2 rest h12 h1s rest2 hdrop ih =>
    obtain ⟨rfl, rfl⟩ := h1s
    rw [scanLine_block_close hdrop]
    exact ih
  | case5 c1 c2 rest h12 h1s hdrop =>
    obtain ⟨rfl, rfl⟩ := h1s
    rw [scanLine_block_open hdrop]
    rfl
  | case6 c1 c2 rest h12 h1s ih =>
    rw [scanLine_copy h12 h1s]
    cases hr : (scanLine (c2 :: rest)).1 with
    | nil => rfl
    | cons d r' =>
      have hd : d = c2 ∨ c1 ≠ '/' := by
        by_cases hc1 : c1 = '/'
        · have hc2 : c2 ≠ '/' := by
            intro h
            exact h12 ⟨hc1, h⟩
          rcases scanLine_head hc2 rest with h | ⟨r'', h⟩
          · rw [h] at hr; exact absurd hr (by simp)
          · rw [h] at hr
            exact Or.inl (by injection hr with h1 _; exact h1.symm)
        · exact Or.inr hc1
      rw [adjOK]
      rw [hr] at ih
      simp only [ih, Bool.and_true]
      rcases hd with rfl | hc1
      · simp only [slashOK]
        by_cases hc1 : c1 = '/'
        · have hds : ¬(d = '/' ∨ d = '*') := by
            rintro (h | h)
            · exact h12 ⟨hc1, h⟩
            · exact h1s ⟨hc1, h⟩
          push_neg at hds
          simp [hc1, hds.1, hds.2]
        · simp [hc1]
      · simp [slashOK, hc1]

/-- A line free of `//` and `/*` is scanned to itself, without opening a
block comment. -/
theorem scanLine_id : ∀ {l : List Char}, adjOK slashOK l = true →
    scanLine l = (l, false) := by
  intro l
  induction l with
  | nil => intro _; exact scanLine_nil
  | cons c1 l' ih =>
    intro h
    cases l' with
    | nil => exact scanLine_single c1
    | cons c2 rest =>
      rw [adjOK] at h
      simp only [Bool.and_eq_true] at h
      have h12 : ¬(c1 = '/' ∧ c2 = '/') := by
        intro hx
        simp [slashOK, hx.1, hx.2] at h
      have h1s : ¬(c1 = '/' ∧ c2 = '*') := by
        intro hx
        simp [slashOK, hx.1, hx.2] at h
      rw [scanLine_copy h12 h1s, ih h.2]

theorem adjOK_cons {ok : Char → Char → Bool} {x : Char} {l : List Char} :
    adjOK ok (x :: l) = true ↔
      (∀ y, l.head? = some y → ok x y = true) ∧ adjOK ok l = true := by
  cases l with
  | nil => simp [adjOK]
  | cons y t =>
    rw [adjOK]
    simp only [Bool.and_eq_true, List.head?_cons, Option.some.injEq]
    constructor
    · intro h
      exact ⟨fun z hz => hz ▸ h.1, h.2⟩
    · intro h
      exact ⟨h.1 y rfl, h.2⟩

theorem adjOK_append_left {ok : Char → Char → Bool} :
    ∀ {p q : List Char}, adjOK ok (p ++ q) = true → adjOK ok p = true := by
  intro p
  induction p with
  | nil => intro q _; rfl
  | cons c p' ih =>
    intro q h
    rw [List.cons_append, adjOK_cons] at h
    rw [adjOK_cons]
    refine ⟨?_, ih h.2⟩
    intro y hy
    apply h.1
    cases p' with
    | nil => simp at hy
    | cons z p'' =>
      simp only [List.head?_cons, Option.some.injEq] at hy
      subst hy
      simp

theorem collapseWs_cons : ∀ (rest : List Char) (c : Char),
    ∃ tail, collapseWs (c :: rest) = (if isBlank c then ' ' else c) :: tail := by
  intro rest
  induction rest with
  | nil =>
    intro c
    by_cases h : isBlank c = true
    · exact ⟨[], by simp [collapseWs, h]⟩
    · exact ⟨[], by simp [collapseWs, h]⟩
  | cons c2 rest2 ih =>
    intro c
    by_cases h1 : isBlank c = true
    · by_cases h2 : isBlank c2 = true
      · obtain ⟨tail, htail⟩ := ih c2
        refine ⟨tail, ?_⟩
        rw [collapseWs]
        simp only [h1, h2, if_true]
        rw [htail]
        simp [h2]
      · exact ⟨collapseWs (c2 :: rest2), by rw [collapseWs]; simp [h1, h2]⟩
    · exact ⟨collapseWs (c2 :: rest2), by rw [collapseWs]; simp [h1]⟩

theorem collapseWs_wellWs : ∀ l : List Char,
    (collapseWs l).all (fun c => !(c = '\t')) = true ∧
      adjOK blankOK (collapseWs l) = true := by
  intro l
  induction l using collapseWs.induct with
  | case1 => simp [collapseWs, adjOK]
  | case2 c hb => simp [collapseWs, hb, adjOK]
  | case3 c hb =>
    rw [collapseWs, if_neg hb]
    refine ⟨?_, by simp [adjOK]⟩
    simp only [List.all_cons, List.all_nil, Bool.and_true]
    simp
    intro hEq
    subst hEq
    simp [isBlank] at hb
  | case4 c1 c2 rest h1 h2 ih =>
    rw [collapseWs, if_pos h1, if_pos h2]
    exact ih
  | case5 c1 c2 rest h1 h2 ih =>
    rw [collapseWs, if_pos h1, if_neg h2]
    obtain ⟨tail, htail⟩ := collapseWs_cons rest c2
    constructor
    · simp only [List.all_cons, Bool.and_eq_true]
      exact ⟨by simp, ih.1⟩
    · rw [adjOK_cons]
      refine ⟨?_, ih.2⟩
      intro y hy
      rw [htail] at hy
      simp only [List.head?_cons, Option.some.injEq] at hy
      subst hy
      rw [if_neg h2]
      simp [blankOK, h2]
  | case6 c1 c2 rest h1 ih =>
    rw [collapseWs, if_neg h1]
    constructor
    · simp only [List.all_cons, Bool.and_eq_true]
      refine ⟨?_, ih.1⟩
      simp
      intro hEq
      subst hEq
      simp [isBlank] at h1
    · rw [adjOK_cons]
      refine ⟨?_, ih.2⟩
      intro y hy
      simp [blankOK, h1]

theorem collapseWs_id : ∀ l : List Char,
    l.all (fun c => !(c = '\t')) = true → adjOK blankOK l = true →
      collapseWs l = l := by
  intro l
  induction l using collapseWs.induct with
  | case1 => intro _ _; rfl
  | case2 c hb =>
    intro ht _
    have hc : c = ' ' := by
      simp [isBlank] at hb
      simp at ht
      rcases hb with h | h
      · exact h
      · exact absurd h ht
    rw [collapseWs, if_pos hb, hc]
  | case3 c hb =>
    intro _ _
    rw [collapseWs, if_neg hb]
  | case4 c1 c2 rest h1 h2 ih =>
    intro ht ha
    have hp : blankOK c1 c2 = true := (adjOK_cons.mp ha).1 c2 rfl
    simp [blankOK, h1, h2] at hp
  | case5 c1 c2 rest h1 h2 ih =>
    intro ht ha
    have hc1 : c1 = ' ' := by
      simp [isBlank] at h1
      simp at ht
      rcases h1 with h | h
      · exact h
      · exact absurd h ht.1
    rw [collapseWs, if_pos h1, if_neg h2]
    rw [ih (by simp at ht ⊢; exact ht.2) (adjOK_cons.mp ha).2]
    rw [hc1]
  | case6 c1 c2 rest h1 ih =>
    intro ht ha
    rw [collapseWs, if_neg h1]
    rw [ih (by simp at ht ⊢; exact ht.2) (adjOK_cons.mp ha).2]

theorem collapseWs_slash : ∀ l : List Char, adjOK slashOK l = true →
    adjOK slashOK (collapseWs l) = true := by
  intro l
  induction l using collapseWs.induct with
  | case1 => intro _; simp [collapseWs, adjOK]
  | case2 c hb => intro _; rw [collapseWs, if_pos hb]; rfl
  | case3 c hb => intro _; rw [collapseWs, if_neg hb]; rfl
  | case4 c1 c2 rest h1 h2 ih =>
    intro ha
    rw [collapseWs, if_pos h1, if_pos h2]
    exact ih (adjOK_cons.mp ha).2
  | case5 c1 c2 rest h1 h2 ih =>
    intro ha
    rw [collapseWs, if_pos h1, if_neg h2]
    rw [adjOK_cons]
    refine ⟨?_, ih (adjOK_cons.mp ha).2⟩
    intro y _
    simp [slashOK]
  | case6 c1 c2 rest h1 ih =>
    intro ha
    rw [collapseWs, if_neg h1]
    rw [adjOK_cons]
    refine ⟨?_, ih (adjOK_cons.mp ha).2⟩
    intro y hy
    obtain ⟨tail, htail⟩ := collapseWs_cons rest c2
    rw [htail] at hy
    simp only [List.head?_cons, Option.some.injEq] at hy
    subst hy
    by_cases hc1 : c1 = '/'
    · have h12 : slashOK c1 c2 = true := (adjOK_cons.mp ha).1 c2 rfl
      simp only [slashOK, hc1] at h12 ⊢
      simp at h12
      by_cases hb2 : isBlank c2 = true
      · rw [if_pos hb2]
        simp
      · rw [if_neg hb2]
        simp [h12.1, h12.2]
    · simp [slashOK, hc1]

theorem collapseWs_subset : ∀ l : List Char, ∀ {x}, x ∈ collapseWs l →
    x ∈ l ∨ x = ' ' := by
  intro l
  induction l using collapseWs.induct with
  | case1 => intro x hx; simp [collapseWs] at hx
  | case2 c hb =>
    intro x hx
    rw [collapseWs, if_pos hb] at hx
    simp at hx
    exact Or.inr hx
  | case3 c hb =>
    intro x hx
    rw [collapseWs, if_neg hb] at hx
    simp at hx
    exact Or.inl (by simp [hx])
  | case4 c1 c2 rest h1 h2 ih =>
    intro x hx
    rw [collapseWs, if_pos h1, if_pos h2] at hx
    rcases ih hx with h | h
    · exact Or.inl (List.mem_cons_of_mem _ h)
    · exact Or.inr h
  | case5 c1 c2 rest h1 h2 ih =>
    intro x hx
    rw [collapseWs, if_pos h1, if_neg h2] at hx
    rcases List.mem_cons.mp hx with rfl | hx2
    · exact Or.inr rfl
    · rcases ih hx2 with h | h
      · exact Or.inl (List.mem_cons_of_mem _ h)
      · exact Or.inr h
  | case6 c1 c2 rest h1 ih =>
    intro x hx
    rw [collapseWs, if_neg h1] at hx
    rcases List.mem_cons.mp hx with rfl | hx2
    · exact Or.inl (by simp)
    · rcases ih hx2 with h | h
      · exact Or.inl (List.mem_cons_of_mem _ h)
      · exact Or.inr h

/-! ### Right-strip and split/join facts -/

theorem dropWhile_idem (p : Char → Bool) : ∀ m : List Char,
    List.dropWhile p (List.dropWhile p m) = List.dropWhile p m := by
  intro m
  induction m with
  | nil => simp
  | cons c m' ih =>
    rw [List.dropWhile_cons]
    split
    · exact ih
    · rw [List.dropWhile_cons]
      simp_all

theorem dropWhile_suffix (p : Char → Bool) : ∀ m : List Char,
    ∃ pre, m = pre ++ m.dropWhile p := by
  intro m
  induction m with
  | nil => exact ⟨[], rfl⟩
  | cons c m' ih =>
    rw [List.dropWhile_cons]
    split
    · obtain ⟨pre, hpre⟩ := ih
      exact ⟨c :: pre, by rw [List.cons_append, ← hpre]⟩
    · exact ⟨[], rfl⟩

theorem pyRstrip_idem (l : List Char) : pyRstrip (pyRstrip l) = pyRstrip l := by
  unfold pyRstrip
  rw [List.reverse_reverse, dropWhile_idem]

theorem pyRstrip_prefix_of (l : List Char) : ∃ q, pyRstrip l ++ q = l := by
  obtain ⟨pre, hpre⟩ := dropWhile_suffix pySpace l.reverse
  refine ⟨pre.reverse, ?_⟩
  unfold pyRstrip
  rw [← List.reverse_append, ← hpre, List.reverse_reverse]

theorem pyRstrip_adjOK {ok : Char → Char → Bool} {l : List Char}
    (h : adjOK ok l = true) : adjOK ok (pyRstrip l) = true := by
  obtain ⟨q, hq⟩ := pyRstrip_prefix_of l
  rw [← hq] at h
  exact adjOK_append_left h

theorem pyRstrip_mem {l : List Char} {x : Char} (h : x ∈ pyRstrip l) : x ∈ l := by
  obtain ⟨q, hq⟩ := pyRstrip_prefix_of l
  rw [← hq]
  exact List.mem_append_left q h

theorem pyRstrip_all {p : Char → Bool} {l : List Char} (h : l.all p = true) :
    (pyRstrip l).all p = true := by
  rw [List.all_eq_true] at h ⊢
  intro x hx
  exact h x (pyRstrip_mem hx)

theorem splitOnChar_ne_nil (sep : Char) (s : List Char) : splitOnChar sep s ≠ [] := by
  cases s with
  | nil => simp [splitOnChar]
  | cons c cs =>
    rw [splitOnChar]
    split
    · simp
    · split <;> simp

theorem mem_splitOnChar (sep : Char) : ∀ (s : List Char),
    ∀ chunk ∈ splitOnChar sep s, sep ∉ chunk := by
  intro s
  induction s with
  | nil =>
    intro chunk hc
    simp [splitOnChar] at hc
    simp [hc]
  | cons c cs ih =>
    intro chunk hc
    rw [splitOnChar] at hc
    by_cases h : c = sep
    · rw [if_pos h] at hc
      rcases List.mem_cons.mp hc with rfl | hc2
      · simp
      · exact ih chunk hc2
    · rw [if_neg h] at hc
      cases hsplit : splitOnChar sep cs with
      | nil => exact absurd hsplit (splitOnChar_ne_nil sep cs)
      | cons l ls =>
        rw [hsplit] at hc
        rcases List.mem_cons.mp hc with rfl | hc2
        · intro hmem
          rcases List.mem_cons.mp hmem with rfl | hmem2
          · exact h rfl
          · exact ih l (by rw [hsplit]; simp) hmem2
        · exact ih chunk (by rw [hsplit]; simp [hc2])

theorem splitOnChar_no_sep {sep : Char} : ∀ {l : List Char}, sep ∉ l →
    splitOnChar sep l = [l] := by
  intro l
  induction l with
  | nil => intro _; rfl
  | cons c cs ih =>
    intro h
    rw [splitOnChar, if_neg (by intro hEq; exact h (by simp [hEq]))]
    rw [ih (by intro hmem; exact h (by simp [hmem]))]

theorem splitOnChar_append {sep : Char} : ∀ {l rest : List Char}, sep ∉ l →
    splitOnChar sep (l ++ sep :: rest) = l :: splitOnChar sep rest := by
  intro l
  induction l with
  | nil =>
    intro rest _
    simp [splitOnChar]
  | cons c l' ih =>
    intro rest h
    rw [List.cons_append, splitOnChar,
      if_neg (by intro hEq; exact h (by simp [hEq]))]
    rw [ih (by intro hmem; exact h (by simp [hmem]))]

theorem splitJoin {sep : Char} : ∀ {ls : List (List Char)}, ls ≠ [] →
    (∀ l ∈ ls, sep ∉ l) → splitOnChar sep (joinChar sep ls) = ls := by
  intro ls
  induction ls with
  | nil => intro h; exact absurd rfl h
  | cons l ls' ih =>
    intro _ hmem
    cases ls' with
    | nil => exact splitOnChar_no_sep (hmem l (by simp))
    | cons l2 ls'' =>
      rw [joinChar, splitOnChar_append (hmem l (by simp))]
      · rw [ih (List.cons_ne_nil l2 ls'') (fun x hx => hmem x (by simp [hx]))]
      · exact fun h => List.noConfusion h

/-! ### Preprocessed lines are fixed points of a second pass -/

/-- The state of an output line of the preprocessor: no comment opener, no
tab, no two adjacent blanks, right-stripped, and newline-free. -/
def cleanLine (o : List Char) : Prop :=
  adjOK slashOK o = true ∧ o.all (fun c => !(c = '\t')) = true ∧
    adjOK blankOK o = true ∧ pyRstrip o = o ∧ ('\x0a') ∉ o

theorem cleaned_clean (m : List Char) (hnl : ('\x0a') ∉ m) :
    cleanLine (pyRstrip (collapseWs (scanLine m).1)) := by
  have h1 : adjOK slashOK (scanLine m).1 = true := scanLine_adjOK m
  have h2 := collapseWs_wellWs (scanLine m).1
  have h3 : adjOK slashOK (collapseWs (scanLine m).1) = true :=
    collapseWs_slash (scanLine m).1 h1
  refine ⟨pyRstrip_adjOK h3, pyRstrip_all h2.1, pyRstrip_adjOK h2.2,
    pyRstrip_idem _, ?_⟩
  intro hmem
  rcases collapseWs_subset (scanLine m).1 (pyRstrip_mem hmem) with h | h
  · exact hnl (scanLine_subset m h)
  · simp at h

theorem cleanLine_nil : cleanLine [] := by
  refine ⟨rfl, rfl, rfl, rfl, by simp⟩

theorem processLine_clean {b : Bool} {l : List Char} (hnl : ('\x0a') ∉ l) :
    cleanLine (processLine b l).1 := by
  unfold processLine
  cases b with
  | false =>
    simp only [Bool.false_eq_true, if_false]
    exact cleaned_clean l hnl
  | true =>
    simp only [if_true]
    cases hdrop : dropClose l with
    | none => exact cleanLine_nil
    | some rest =>
      exact cleaned_clean rest (fun hmem => hnl (dropClose_subset hdrop hmem))

theorem processLine_of_clean {o : List Char} (h : cleanLine o) :
    processLine false o = (o, false) := by
  unfold processLine
  simp only [Bool.false_eq_true, if_false]
  rw [scanLine_id h.1]
  rw [collapseWs_id o h.2.1 h.2.2.1, h.2.2.2.1]

theorem preprocessLines_clean : ∀ (lines : List (List Char)) (b : Bool),
    (∀ l ∈ lines, ('\x0a') ∉ l) →
      ∀ o ∈ preprocessLines b lines, cleanLine o := by
  intro lines
  induction lines with
  | nil => intro b _ o ho; simp [preprocessLines] at ho
  | cons l ls ih =>
    intro b h o ho
    rw [preprocessLines] at ho
    rcases List.mem_cons.mp ho with rfl | ho2
    · exact processLine_clean (h l (by simp))
    · exact ih _ (fun x hx => h x (by simp [hx])) o ho2

theorem preprocessLines_id : ∀ (out : List (List Char)),
    (∀ o ∈ out, cleanLine o) → preprocessLines false out = out := by
  intro out
  induction out with
  | nil => intro _; rfl
  | cons o out' ih =>
    intro h
    rw [preprocessLines, processLine_of_clean (h o (by simp))]
    rw [ih (fun x hx => h x (by simp [hx]))]

theorem preprocessLines_ne_nil {b : Bool} {lines : List (List Char)}
    (h : lines ≠ []) : preprocessLines b lines ≠ [] := by
  cases lines with
  | nil => exact absurd rfl h
  | cons l ls => rw [preprocessLines]; simp

/-! ### Further facts for the module hash and the inheritance split -/

theorem concatBytes_append : ∀ (A B : List SrcFile),
    concatBytes (A ++ B) = concatBytes A ++ concatBytes B := by
  intro A B
  induction A with
  | nil => simp [concatBytes]
  | cons f fs ih => simp [concatBytes, ih]

theorem insFile_map {g : SrcFile → SrcFile} (hg : ∀ f, (g f).path = f.path)
    (f : SrcFile) : ∀ s, insFile (g f) (s.map g) = (insFile f s).map g := by
  intro s
  induction s with
  | nil => simp [insFile]
  | cons t ts ih =>
    rw [List.map_cons]
    show insFile (g f) (g t :: ts.map g) = (insFile f (t :: ts)).map g
    by_cases h : lexLt f.path t.path = true
    · rw [insFile, insFile, hg f, hg t, if_pos h, if_pos h]
      rfl
    · rw [insFile, insFile, hg f, hg t, if_neg h, if_neg h]
      rw [List.map_cons, ih]

theorem sortFiles_map {g : SrcFile → SrcFile} (hg : ∀ f, (g f).path = f.path) :
    ∀ l, sortFiles (l.map g) = (sortFiles l).map g := by
  intro l
  induction l with
  | nil => rfl
  | cons x t ih =>
    rw [List.map_cons]
    show insFile (g x) (sortFiles (t.map g)) = (insFile x (sortFiles t)).map g
    rw [ih, insFile_map hg]

theorem map_eq_self_of {g : SrcFile → SrcFile} : ∀ {A : List SrcFile},
    (∀ x ∈ A, g x = x) → A.map g = A := by
  intro A
  induction A with
  | nil => intro _; rfl
  | cons a A' ih =>
    intro h
    rw [List.map_cons, h a (by simp), ih (fun x hx => h x (by simp [hx]))]

theorem filterMap_all_some {f : List Char → Option (List Char)} :
    ∀ {l : List (List Char)}, (∀ s ∈ l, f s ≠ none) →
      (l.filterMap f).length = l.length := by
  intro l
  induction l with
  | nil => intro _; rfl
  | cons s l' ih =>
    intro h
    cases hf : f s with
    | none => exact absurd hf (h s (by simp))
    | some v =>
      simp only [List.filterMap_cons, hf, List.length_cons]
      rw [ih (fun x hx => h x (by simp [hx]))]

/-! ## Claim theorems -/

/-- C1 (counterexample): the inheritance list `public TBase<A, B>` has one
top-level parent (the depth-aware splitter returns one part), yet the Dialect
Parser produces TWO `parent_classes` entries, because line 448 splits at
every comma including the template-argument comma. -/
theorem C1_counterexample :
    (splitParams (String.data ("public TBase<A, B>"))).length = 1 ∧
      (parseParents (String.data ("public TBase<A, B>"))).length = 2 := by
  constructor
  · decide
  · decide

/-- C1 (amended): the Dialect Parser splits the inheritance list at EVERY
comma, whether or not it is nested in angle brackets; each comma-free
segment whose cleaned form is non-empty and not a bare access specifier
contributes exactly one `parent_classes` entry, so a template parent with an
internal comma yields one extra entry per internal comma. -/
theorem C1_inheritance_split_amended (segs : List (List Char))
    (hne : segs ≠ []) (hcomma : ∀ s ∈ segs, (',') ∉ s)
    (hclean : ∀ s ∈ segs, cleanSeg s ≠ none) :
    (parseParents (joinChar (',') segs)).length = segs.length := by
  have hj : splitOnChar (',') (joinChar (',') segs) = segs := splitJoin hne hcomma
  have hjoin_ne : joinChar (',') segs ≠ [] := by
    intro h
    rw [h] at hj
    have hsegs : segs = [[]] := by
      rw [← hj]
      rfl
    have := hclean [] (by rw [hsegs]; simp)
    exact this (by decide)
  rw [parseParents, if_neg hjoin_ne, hj]
  exact filterMap_all_some hclean

/-- C1 (witness): the amended statement at a concrete two-parent list. -/
theorem C1_witness :
    (parseParents (joinChar (',')
      [String.data (" public UObject"), String.data (" IGrabbable")])).length = 2 :=
  C1_inheritance_split_amended _ (by decide) (by decide) (by decide)

/-- C2 (counterexample): a dependency declaration that appears ONLY inside a
`//` comment still contributes a name, because comments are stripped only
inside matched array-literal text, after matching, and single-name `Add`
matches are not comment-filtered at all. -/
theorem C2_counterexample :
    (parseBuildCsContent
        (String.data ("// PublicDependencyModuleNames.Add(\"Foo\")"))).pubDeps =
      [String.data ("Foo")] := by
  decide

/-- C2 (amended): `BuildCsParser.parse_content` returns exactly five name
lists (public/private/dynamic/weak/circular) and each is deduplicated and
sorted; but comments are stripped only from the captured array-literal text
after matching (single-name `Add` matches are never comment-filtered), so a
dependency declaration appearing only inside a comment can still contribute
names.  The concrete conjunct shows the array-internal stripping: a name
behind a line comment inside the braces contributes nothing. -/
theorem C2_buildcs_lists_sorted (content : List Char) :
    ((strictAsc (parseBuildCsContent content).pubDeps ∧
      (parseBuildCsContent content).pubDeps.Nodup) ∧
    (strictAsc (parseBuildCsContent content).privDeps ∧
      (parseBuildCsContent content).privDeps.Nodup) ∧
    (strictAsc (parseBuildCsContent content).dynDeps ∧
      (parseBuildCsContent content).dynDeps.Nodup) ∧
    (strictAsc (parseBuildCsContent content).weakDeps ∧
      (parseBuildCsContent content).weakDeps.Nodup) ∧
    (strictAsc (parseBuildCsContent content).circDeps ∧
      (parseBuildCsContent content).circDeps.Nodup)) ∧
    (parseBuildCsContent (String.data
        ("PublicDependencyModuleNames.AddRange(new string[] \x7b \"Core\", // \"Slate\"\n \"Engine\" \x7d);"))).pubDeps =
      [String.data ("Core"), String.data ("Engine")] := by
  constructor
  · unfold parseBuildCsContent
    exact ⟨⟨pyDedupSort_sorted _, strictAsc_nodup (pyDedupSort_sorted _)⟩,
      ⟨pyDedupSort_sorted _, strictAsc_nodup (pyDedupSort_sorted _)⟩,
      ⟨pyDedupSort_sorted _, strictAsc_nodup (pyDedupSort_sorted _)⟩,
      ⟨pyDedupSort_sorted _, strictAsc_nodup (pyDedupSort_sorted _)⟩,
      ⟨pyDedupSort_sorted _, strictAsc_nodup (pyDedupSort_sorted _)⟩⟩
  · decide

/-- C3: the incremental diff classifies every module name into exactly one of
added / modified / removed / unchanged, characterised by presence in the
manifest and the fresh scan and by hash comparison; and the concrete
scenario (B's hash changed, C deleted, D new, A untouched) yields
added=\x7bD\x7d, modified=\x7bB\x7d, removed=\x7bC\x7d, unchanged=\x7bA\x7d. -/
theorem C3_diff_classification :
    (∀ (old cur : List (List Char × List Char)) (n : List Char),
      (n ∈ (computeDiff old cur).added ↔
        n ∈ cur.map Prod.fst ∧ n ∉ old.map Prod.fst) ∧
      (n ∈ (computeDiff old cur).removed ↔
        n ∈ old.map Prod.fst ∧ n ∉ cur.map Prod.fst) ∧
      (n ∈ (computeDiff old cur).modified ↔
        n ∈ old.map Prod.fst ∧ n ∈ cur.map Prod.fst ∧
          manifestHash old n ≠ scanHash cur n) ∧
      (n ∈ (computeDiff old cur).unchanged ↔
        n ∈ old.map Prod.fst ∧ n ∈ cur.map Prod.fst ∧
          manifestHash old n = scanHash cur n)) ∧
    computeDiff
        [(String.data ("A"), String.data ("h1")),
         (String.data ("B"), String.data ("h2")),
         (String.data ("C"), String.data ("h3"))]
        [(String.data ("D"), String.data ("h9")),
         (String.data ("B"), String.data ("h2x")),
         (String.data ("A"), String.data ("h1"))] =
      { added := [String.data ("D")], modified := [String.data ("B")],
        removed := [String.data ("C")], unchanged := [String.data ("A")] } := by
  constructor
  · intro old cur n
    unfold computeDiff
    simp only [mem_pyDedupSort, List.mem_filter, decide_eq_true_eq,
      Bool.not_eq_true', decide_eq_false_iff_not]
    tauto
  · decide

/-- C4: the parameter splitter breaks a parameter list exactly at the commas
seen at angle-bracket depth zero (plus a final chunk when its stripped text
is non-empty), so commas nested inside template angle brackets never start a
new parameter; in particular a two-argument map type stays inside a single
parameter. -/
theorem C4_split_params_top_level :
    (∀ s : List Char, (splitParams s).length =
      topLevelCommas 0 s + (if pyStrip (lastChunk 0 [] s) = [] then 0 else 1)) ∧
    splitParams (String.data ("TMap<FString, int32> M, float f")) =
      [String.data ("TMap<FString, int32> M"), String.data (" float f")] := by
  constructor
  · intro s
    exact splitParamsAux_length s 0 []
  · decide

/-- C5: for a non-empty parent list the extracted primary parent is never an
interface-named type (capital I followed by an uppercase letter) unless
every listed parent is interface-named, in which case it is the first listed
parent. -/
theorem C5_primary_parent (ps : List (List Char)) (hne : ps ≠ []) :
    ∃ p, primaryParent ps = some p ∧
      (isInterfaceName p = false ∨
        ((∀ q ∈ ps, isInterfaceName q = true) ∧ ps.head? = some p)) := by
  unfold primaryParent
  cases hf : ps.find? (fun pc => !(isInterfaceName pc)) with
  | some pc =>
    refine ⟨pc, rfl, Or.inl ?_⟩
    have := List.find?_some hf
    simpa using this
  | none =>
    cases ps with
    | nil => exact absurd rfl hne
    | cons a t =>
      refine ⟨a, rfl, Or.inr ⟨?_, rfl⟩⟩
      intro q hq
      have := List.find?_eq_none.mp hf q hq
      simpa using this

/-- C5 (witness): a list whose parents are all interface-named falls back to
the first listed parent. -/
theorem C5_witness :
    [String.data ("IGrabbable"), String.data ("IThrowable")] ≠ [] ∧
      ∃ p, primaryParent [String.data ("IGrabbable"), String.data ("IThrowable")] = some p ∧
        (isInterfaceName p = false ∨
          ((∀ q ∈ [String.data ("IGrabbable"), String.data ("IThrowable")],
              isInterfaceName q = true) ∧
            [String.data ("IGrabbable"), String.data ("IThrowable")].head? = some p)) :=
  ⟨by decide, C5_primary_parent _ (by decide)⟩

/-- C6: comment stripping is idempotent: running the preprocessor on the
newline-join of its own output returns the same lines unchanged. -/
theorem C6_preprocess_idempotent (c : List Char) :
    preprocessContentLines (joinChar ('\x0a') (preprocessContentLines c)) =
      preprocessContentLines c := by
  unfold preprocessContentLines
  have hl : ∀ l ∈ splitOnChar ('\x0a') c, ('\x0a') ∉ l := mem_splitOnChar _ c
  have hclean : ∀ o ∈ preprocessLines false (splitOnChar ('\x0a') c), cleanLine o :=
    preprocessLines_clean _ false hl
  have hnl : ∀ o ∈ preprocessLines false (splitOnChar ('\x0a') c), ('\x0a') ∉ o :=
    fun o ho => (hclean o ho).2.2.2.2
  have hne : preprocessLines false (splitOnChar ('\x0a') c) ≠ [] :=
    preprocessLines_ne_nil (splitOnChar_ne_nil _ c)
  rw [splitJoin hne hnl]
  exact preprocessLines_id _ hclean

/-- C7: the combined module hash is computed over the declaration bytes and
the member files in sorted path order, so it does not depend on the
enumeration order of the member-file set; and under an injective digest,
replacing one member file's content by different bytes of the same length
changes the combined hash. -/
theorem C7_module_hash :
    (∀ (H : List Nat → List Nat) (buildcs : List Nat) (files files' : List SrcFile),
      files.Perm files' → (files.map SrcFile.path).Nodup →
        computeModuleHash H buildcs files = computeModuleHash H buildcs files') ∧
    (∀ (H : List Nat → List Nat) (buildcs : List Nat) (files : List SrcFile)
        (p : List Char) (c1 c2 : List Nat),
      Function.Injective H → SrcFile.mk p c1 ∈ files →
        (files.map SrcFile.path).Nodup → c1 ≠ c2 → c1.length = c2.length →
        computeModuleHash H buildcs files ≠
          computeModuleHash H buildcs
            (files.map (fun f => if f.path = p then SrcFile.mk f.path c2 else f))) := by
  constructor
  · intro H buildcs files files' hperm hnodup
    unfold computeModuleHash
    rw [sortFiles_congr hperm hnodup]
  · intro H buildcs files p c1 c2 hinj hmem hnodup hne hlen
    intro hEq
    unfold computeModuleHash at hEq
    have hg : ∀ f : SrcFile, ((fun f : SrcFile =>
        if f.path = p then SrcFile.mk f.path c2 else f) f).path = f.path := by
      intro f
      by_cases h : f.path = p
      · simp [h]
      · simp [h]
    rw [sortFiles_map hg files] at hEq
    have hmem' : SrcFile.mk p c1 ∈ sortFiles files :=
      ((sortFiles_perm files).mem_iff).mpr hmem
    have hnodup' : ((sortFiles files).map SrcFile.path).Nodup :=
      (((sortFiles_perm files).map SrcFile.path).nodup_iff).mpr hnodup
    obtain ⟨A, B, hAB⟩ := List.append_of_mem hmem'
    rw [hAB] at hEq hnodup'
    simp only [List.map_append, List.map_cons, List.nodup_append] at hnodup'
    have hA : ∀ x ∈ A, x.path ≠ p := by
      intro x hx hxp
      exact hnodup'.2.2 (List.mem_map_of_mem SrcFile.path hx)
        (by rw [hxp]; simp)
    have hB : ∀ x ∈ B, x.path ≠ p := by
      intro x hx hxp
      have := hnodup'.2.1
      rw [List.nodup_cons] at this
      exact this.1 (by rw [← hxp]; exact List.mem_map_of_mem SrcFile.path hx)
    rw [List.map_append, List.map_cons] at hEq
    rw [map_eq_self_of (fun x hx => if_neg (hA x hx))] at hEq
    rw [map_eq_self_of (fun x hx => if_neg (hB x hx))] at hEq
    simp only [if_pos rfl] at hEq
    have hstream := hinj hEq
    rw [List.append_cancel_left_eq] at hstream
    rw [concatBytes_append, concatBytes_append] at hstream
    rw [List.append_cancel_left_eq] at hstream
    simp only [concatBytes] at hstream
    exact hne (List.append_inj hstream hlen).1

/-- C7 (witness): the hash theorem at a concrete digest (the identity stream,
which is injective) and concrete files. -/
theorem C7_witness :
    computeModuleHash (fun l => l) [0]
        [SrcFile.mk (String.data ("a.h")) [1], SrcFile.mk (String.data ("b.h")) [2]] =
      computeModuleHash (fun l => l) [0]
        [SrcFile.mk (String.data ("b.h")) [2], SrcFile.mk (String.data ("a.h")) [1]] ∧
    computeModuleHash (fun l => l) [0] [SrcFile.mk (String.data ("a.h")) [1]] ≠
      computeModuleHash (fun l => l) [0]
        ([SrcFile.mk (String.data ("a.h")) [1]].map
          (fun f => if f.path = String.data ("a.h") then SrcFile.mk f.path [9] else f)) :=
  ⟨C7_module_hash.1 (fun l => l) [0]
      [SrcFile.mk (String.data ("a.h")) [1], SrcFile.mk (String.data ("b.h")) [2]]
      [SrcFile.mk (String.data ("b.h")) [2], SrcFile.mk (String.data ("a.h")) [1]]
      (by decide) (by decide),
   C7_module_hash.2 (fun l => l) [0] [SrcFile.mk (String.data ("a.h")) [1]]
      (String.data ("a.h")) [1] [9] (fun _ _ h => h) (by decide) (by decide)
      (by decide) (by decide)⟩

/-- C8: `parse_content` never lets an exception escape: for every outcome of
the parsing body, the caller receives either the parsed maps, or - when the
body raised - three empty maps together with the logged file and exception. -/
theorem C8_parse_content_catches {κ₁ ν₁ κ₂ ν₂ κ₃ ν₃ : Type} (filePath : List Char)
    (body : Except PyExn (List (κ₁ × ν₁) × List (κ₂ × ν₂) × List (κ₃ × ν₃))) :
    (∃ r, body = .ok r ∧ parseContentRun filePath body = (r, none)) ∨
    (∃ e, body = .error e ∧
      parseContentRun filePath body = (([], [], []), some (filePath, e))) := by
  cases body with
  | ok r => exact Or.inl ⟨r, rfl, rfl⟩
  | error e => exact Or.inr ⟨e, rfl, rfl⟩

/-- C9: with no previously saved manifest, `UpdateStage.run` reports the
"no existing KB" error immediately and performs no side effects: no scan, no
diff, no module update, and no manifest write. -/
theorem C9_no_manifest_no_side_effects (scanned : List (List Char × List Char)) :
    (updateRun none scanned).result = UpdateRunResult.errorNoKB ∧
      (updateRun none scanned).effects = [] :=
  ⟨rfl, rfl⟩

/-- C10: `BuildCsParser.parse_file` on a path that does not exist returns the
five empty dependency lists instead of failing. -/
theorem C10_missing_file_empty (fs : List (List Char × List Char)) (path : List Char)
    (h : alookup fs path = none) :
    parseBuildCsFile fs path =
      { pubDeps := [], privDeps := [], dynDeps := [], weakDeps := [], circDeps := [] } := by
  unfold parseBuildCsFile
  rw [h]

/-- C10 (witness): an empty filesystem has no path, and parsing yields the
five empty lists. -/
theorem C10_witness :
    alookup [] (String.data ("Missing.Build.cs")) = none ∧
      parseBuildCsFile [] (String.data ("Missing.Build.cs")) =
        { pubDeps := [], privDeps := [], dynDeps := [], weakDeps := [], circDeps := [] } :=
  ⟨rfl, C10_missing_file_empty [] _ rfl⟩

end Spec2Proof
